import Mathlib

/-!
# Verification of the PyStockAnalyzer analytics core

Shallow embedding of the analytics core of PyStockAnalyzer
(`src/calculations.py`, `src/advanced_calculations.py`, `src/compare_logic.py`,
`src/portfolio_analyzer.py`) and proofs about it.

Price series are modelled as `List ℚ` of closing prices, aligned by position;
an undefined (NaN) entry of an indicator series is `none : Option ℚ`.
Operations that the underlying numeric library rejects with an exception are
modelled with `Except String`.  The two ways a floating-point division can
leave the real line — `x / 0 = +inf` for `x > 0` and `0 / 0 = NaN` — are
modelled explicitly at the points where the code can hit them (RSI), so no
infinity or NaN value ever needs a direct representation.
-/

namespace PyStock

/-! ## Maximum profit (`advanced_calculations.calculate_max_profit`) -/

/-- Loop body of `calculate_max_profit`: walk the prices keeping the previous
day's price; whenever today's price exceeds yesterday's, add the difference. -/
def maxProfitGo (prev acc : ℚ) : List ℚ → ℚ
  | [] => acc
  | x :: xs => maxProfitGo x (if prev < x then acc + (x - prev) else acc) xs

/-- `calculate_max_profit(prices)` from `src/advanced_calculations.py`:
`max_profit = 0`; for `i in range(1, len(prices))`, if `prices[i] > prices[i-1]`
then `max_profit += prices[i] - prices[i-1]`. -/
def calculate_max_profit : List ℚ → ℚ
  | [] => 0
  | p :: rest => maxProfitGo p 0 rest

/-- Spec-side formula: `Σ max(prices[i] - prices[i-1], 0)` over `i = 1..n-1`. -/
def sumPosDeltas (prices : List ℚ) : ℚ :=
  (List.zipWith (fun a b => max (b - a) 0) prices prices.tail).sum

lemma maxProfitGo_eq (xs : List ℚ) : ∀ (prev acc : ℚ),
    maxProfitGo prev acc xs = acc + sumPosDeltas (prev :: xs) := by
  induction xs with
  | nil => intro prev acc; simp [maxProfitGo, sumPosDeltas]
  | cons x xs ih =>
      intro prev acc
      have hz : sumPosDeltas (prev :: x :: xs)
          = max (x - prev) 0 + sumPosDeltas (x :: xs) := by
        simp [sumPosDeltas]
      rw [maxProfitGo, ih, hz]
      by_cases h : prev < x
      · rw [if_pos h]
        have : max (x - prev) 0 = x - prev := max_eq_left (by linarith)
        rw [this]; ring
      · rw [if_neg h]
        have : max (x - prev) 0 = 0 := max_eq_right (by push_neg at h; linarith)
        rw [this]; ring

lemma sumPosDeltas_of_antitone : ∀ (prices : List ℚ),
    List.Chain' (fun a b => b ≤ a) prices → sumPosDeltas prices = 0 := by
  intro prices h
  induction prices with
  | nil => simp [sumPosDeltas]
  | cons p rest ih =>
      cases rest with
      | nil => simp [sumPosDeltas]
      | cons q rest' =>
          rw [List.chain'_cons] at h
          have hq : sumPosDeltas (q :: rest') = 0 := ih h.2
          have hmax : max (q - p) 0 = 0 := max_eq_right (by linarith [h.1])
          have : sumPosDeltas (p :: q :: rest')
              = max (q - p) 0 + sumPosDeltas (q :: rest') := by
            simp [sumPosDeltas]
          rw [this, hmax, hq]; ring

/-- C2: `calculate_max_profit(prices)` equals the sum of the positive daily
deltas `Σ max(prices[i] - prices[i-1], 0)`; it returns `0` on empty,
single-element and monotonically non-increasing inputs, and takes the
canonical values on the five reference inputs. -/
theorem calculate_max_profit_spec (prices : List ℚ) :
    calculate_max_profit prices = sumPosDeltas prices
    ∧ (List.Chain' (fun a b => b ≤ a) prices → calculate_max_profit prices = 0)
    ∧ calculate_max_profit [] = 0
    ∧ (∀ x : ℚ, calculate_max_profit [x] = 0)
    ∧ calculate_max_profit [7, 1, 5, 3, 6, 4] = 7
    ∧ calculate_max_profit [1, 2, 3, 4, 5] = 4
    ∧ calculate_max_profit [7, 6, 4, 3, 1] = 0
    ∧ calculate_max_profit [100] = 0 := by
  have hmain : ∀ ps : List ℚ, calculate_max_profit ps = sumPosDeltas ps := by
    intro ps
    cases ps with
    | nil => simp [calculate_max_profit, sumPosDeltas]
    | cons p rest => rw [calculate_max_profit, maxProfitGo_eq]; ring
  refine ⟨hmain prices, ?_, rfl, ?_,
    by norm_num [calculate_max_profit, maxProfitGo],
    by norm_num [calculate_max_profit, maxProfitGo],
    by norm_num [calculate_max_profit, maxProfitGo], rfl⟩
  · intro h; rw [hmain]; exact sumPosDeltas_of_antitone prices h
  · intro x; simp [calculate_max_profit, maxProfitGo]

/-- Witness for `calculate_max_profit_spec`: the monotone hypothesis holds on
the concrete non-increasing input `[7,6,4,3,1]` and the profit there is `0`. -/
theorem calculate_max_profit_spec_witness :
    List.Chain' (fun a b => b ≤ a) ([7, 6, 4, 3, 1] : List ℚ)
    ∧ calculate_max_profit [7, 6, 4, 3, 1] = 0 :=
  ⟨by norm_num [List.chain'_cons, List.chain'_singleton],
   (calculate_max_profit_spec [7, 6, 4, 3, 1]).2.1
     (by norm_num [List.chain'_cons, List.chain'_singleton])⟩

/-! ## Scoring (`compare_logic.score_stock`) -/

/-- The fields of one entry of `all_results_list` that `score_stock` reads.
A field whose value is missing or not convertible by `safe_float` is `none`. -/
structure StockMetrics where
  ticker : String
  total_change : Option ℚ
  volatility : Option ℚ
  max_profit : Option ℚ
  rsi_status : String
  rsi_current : Option ℚ
deriving DecidableEq

/-- `score_stock(result)` from `src/compare_logic.py`: sequential accumulation
of the five scoring components, each skipped when `safe_float` yields no
number. -/
def score_stock (r : StockMetrics) : ℚ :=
  let s0 : ℚ := 0
  let s1 := match r.total_change with
    | some tc => let s := s0 + tc * 3; if 20 < tc then s + 10 else s
    | none => s0
  let s2 := match r.volatility with
    | some v => let s := s1 - v * 2; if 5 < v then s - 5 else s
    | none => s1
  let s3 := match r.max_profit with
    | some mp => s2 + mp * 2
    | none => s2
  let s4 := if r.rsi_status = "Neutral" then s3 + 10
    else if r.rsi_status = "Oversold" then s3 + 5
    else if r.rsi_status = "Overbought" then s3 - 10
    else s3
  match r.rsi_current with
    | some rc => if 30 ≤ rc ∧ rc ≤ 70 then s4 + 5 else s4
    | none => s4

set_option maxHeartbeats 2000000 in
/-- C3: `score_stock` computes exactly the published linear-combination
formula, with every missing field contributing `0` to its term (encoded by
`Option.getD 0`, under which each missing field's bonus condition is false). -/
theorem score_stock_formula (r : StockMetrics) :
    score_stock r =
      3 * r.total_change.getD 0
      + (if 20 < r.total_change.getD 0 then 10 else 0)
      - 2 * r.volatility.getD 0
      - (if 5 < r.volatility.getD 0 then 5 else 0)
      + 2 * r.max_profit.getD 0
      + (if r.rsi_status = "Neutral" then 10
         else if r.rsi_status = "Oversold" then 5
         else if r.rsi_status = "Overbought" then -10 else 0)
      + (if 30 ≤ r.rsi_current.getD 0 ∧ r.rsi_current.getD 0 ≤ 70 then 5 else 0) := by
  obtain ⟨tick, tc, v, mp, status, rc⟩ := r
  rcases tc with _ | tc <;> rcases v with _ | v <;> rcases mp with _ | mp <;>
    rcases rc with _ | rc <;>
    simp only [score_stock, Option.getD_none, Option.getD_some] <;>
    norm_num <;> split_ifs <;> ring

/-! ## RSI (`calculations.calculate_rsi`) -/

/-- `gain = delta.where(delta > 0, 0)` over `delta = df['Close'].diff()`:
the leading `diff` entry is NaN, and `NaN > 0` is false, so it becomes `0`. -/
def gains : List ℚ → List ℚ
  | [] => []
  | a :: rest => 0 :: List.zipWith (fun x y => if x < y then y - x else 0) (a :: rest) rest

/-- `loss = -delta.where(delta < 0, 0)`: the negated negative deltas, `0`
elsewhere (including the leading NaN slot). -/
def losses : List ℚ → List ℚ
  | [] => []
  | a :: rest => 0 :: List.zipWith (fun x y => if y < x then x - y else 0) (a :: rest) rest

/-- Tail of `ewm(span, adjust=False).mean()`: `yᵢ = (1-α)·yᵢ₋₁ + α·xᵢ`. -/
def ewmGo (α prev : ℚ) : List ℚ → List ℚ
  | [] => []
  | x :: xs =>
      let y := (1 - α) * prev + α * x
      y :: ewmGo α y xs

/-- pandas `Series.ewm(span, adjust=False).mean()` with `α = 2/(span+1)`:
`y₀ = x₀` and `yᵢ = (1-α)·yᵢ₋₁ + α·xᵢ`. -/
def ewma (α : ℚ) : List ℚ → List ℚ
  | [] => []
  | x :: xs => x :: ewmGo α x xs

/-- One RSI point from average gain `g` and average loss `l`:
`rs = g/l; rsi = 100 - 100/(1+rs)` with the floating-point escape values made
explicit.  `0/0` is NaN, so `g = l = 0` gives an undefined point; `g/0 = +inf`
for `g > 0` gives `rsi = 100`; otherwise `1 + g/l > 0` (the code only reaches
this with `g, l ≥ 0`), so the arithmetic stays on the rationals. -/
def rsiPoint (g l : ℚ) : Option ℚ :=
  if l = 0 then (if g = 0 then none else some 100)
  else some (100 - 100 / (1 + g / l))

/-- `calculate_rsi(df, window)` from `src/calculations.py`: all-NaN series when
`len(df) < window + 1`; otherwise EWM-averaged gains and losses combined
pointwise (pandas `ewm` rejects `span < 1` with a `ValueError`). -/
def calculate_rsi (p : List ℚ) (window : Nat) : Except String (List (Option ℚ)) :=
  if p.length < window + 1 then .ok (List.replicate p.length none)
  else if window < 1 then .error "span must satisfy: span >= 1"
  else
    let α : ℚ := 2 / ((window : ℚ) + 1)
    .ok (List.zipWith rsiPoint (ewma α (gains p)) (ewma α (losses p)))

lemma zipWith_nonneg {f : ℚ → ℚ → ℚ} (hf : ∀ a b, 0 ≤ f a b) :
    ∀ (l₁ l₂ : List ℚ), ∀ x ∈ List.zipWith f l₁ l₂, 0 ≤ x := by
  intro l₁
  induction l₁ with
  | nil => intro l₂ x hx; simp at hx
  | cons a l₁ ih =>
      intro l₂ x hx
      cases l₂ with
      | nil => simp at hx
      | cons b l₂ =>
          rcases List.mem_cons.mp hx with h | h
          · exact h ▸ hf a b
          · exact ih l₂ x h

lemma gains_nonneg (p : List ℚ) : ∀ x ∈ gains p, 0 ≤ x := by
  cases p with
  | nil => intro x hx; simp [gains] at hx
  | cons a rest =>
      intro x hx
      rcases List.mem_cons.mp hx with h | h
      · simp [h]
      · refine zipWith_nonneg ?_ _ _ x h
        intro u v; dsimp only; split_ifs with huv
        · linarith
        · exact le_refl 0

lemma losses_nonneg (p : List ℚ) : ∀ x ∈ losses p, 0 ≤ x := by
  cases p with
  | nil => intro x hx; simp [losses] at hx
  | cons a rest =>
      intro x hx
      rcases List.mem_cons.mp hx with h | h
      · simp [h]
      · refine zipWith_nonneg ?_ _ _ x h
        intro u v; dsimp only; split_ifs with huv
        · linarith
        · exact le_refl 0

lemma ewmGo_nonneg {α : ℚ} (h0 : 0 ≤ α) (h1 : α ≤ 1) :
    ∀ (xs : List ℚ) (prev : ℚ), 0 ≤ prev → (∀ x ∈ xs, 0 ≤ x) →
      ∀ y ∈ ewmGo α prev xs, 0 ≤ y := by
  intro xs
  induction xs with
  | nil => intro prev _ _ y hy; simp [ewmGo] at hy
  | cons x xs ih =>
      intro prev hprev hxs y hy
      have hx : 0 ≤ x := hxs x (List.mem_cons_self x xs)
      have hstep : 0 ≤ (1 - α) * prev + α * x := by
        have := mul_nonneg (by linarith : (0:ℚ) ≤ 1 - α) hprev
        have := mul_nonneg h0 hx
        linarith
      rcases List.mem_cons.mp hy with h | h
      · exact h ▸ hstep
      · exact ih _ hstep (fun z hz => hxs z (List.mem_cons_of_mem x hz)) y h

lemma ewma_nonneg {α : ℚ} (h0 : 0 ≤ α) (h1 : α ≤ 1) (xs : List ℚ)
    (hxs : ∀ x ∈ xs, 0 ≤ x) : ∀ y ∈ ewma α xs, 0 ≤ y := by
  cases xs with
  | nil => intro y hy; simp [ewma] at hy
  | cons x xs =>
      intro y hy
      have hx : 0 ≤ x := hxs x (List.mem_cons_self x xs)
      rcases List.mem_cons.mp hy with h | h
      · exact h ▸ hx
      · exact ewmGo_nonneg h0 h1 xs x hx
          (fun z hz => hxs z (List.mem_cons_of_mem x hz)) y h

lemma rsiPoint_bounds {g l : ℚ} (hg : 0 ≤ g) (hl : 0 ≤ l) :
    ∀ x : ℚ, rsiPoint g l = some x → 0 ≤ x ∧ x ≤ 100 := by
  intro x hx
  unfold rsiPoint at hx
  split_ifs at hx with h1 h2
  · simp only [Option.some.injEq] at hx
    subst hx
    norm_num
  · simp only [Option.some.injEq] at hx
    subst hx
    have hl' : 0 < l := lt_of_le_of_ne hl (Ne.symm h1)
    have hrs : 0 ≤ g / l := div_nonneg hg hl
    have hd : (1:ℚ) ≤ 1 + g / l := by linarith
    have hpos : 0 < 100 / (1 + g / l) := div_pos (by norm_num) (by linarith)
    have hle : 100 / (1 + g / l) ≤ 100 := by
      rw [div_le_iff₀ (by linarith)]
      nlinarith
    exact ⟨by linarith, by linarith⟩

lemma mem_zipWith_exists {f : ℚ → ℚ → Option ℚ} :
    ∀ (l₁ l₂ : List ℚ) (z : Option ℚ), z ∈ List.zipWith f l₁ l₂ →
      ∃ a ∈ l₁, ∃ b ∈ l₂, z = f a b := by
  intro l₁
  induction l₁ with
  | nil => intro l₂ z hz; simp at hz
  | cons a l₁ ih =>
      intro l₂ z hz
      cases l₂ with
      | nil => simp at hz
      | cons b l₂ =>
          rcases List.mem_cons.mp hz with h | h
          · exact ⟨a, List.mem_cons_self a l₁, b, List.mem_cons_self b l₂, h⟩
          · obtain ⟨a', ha', b', hb', hz'⟩ := ih l₂ z h
            exact ⟨a', List.mem_cons_of_mem a ha', b', List.mem_cons_of_mem b hb', hz'⟩

/-- C9: every defined value of `calculate_rsi` lies in `[0, 100]`. -/
theorem calculate_rsi_range (p : List ℚ) (window : Nat) (out : List (Option ℚ))
    (hout : calculate_rsi p window = Except.ok out) :
    ∀ x : ℚ, some x ∈ out → 0 ≤ x ∧ x ≤ 100 := by
  intro x hx
  unfold calculate_rsi at hout
  split_ifs at hout with hshort hspan
  · simp only [Except.ok.injEq] at hout
    subst hout
    exact absurd (List.eq_of_mem_replicate hx) (by simp)
  · simp only [Except.ok.injEq] at hout
    subst hout
    have hα0 : (0:ℚ) ≤ 2 / ((window : ℚ) + 1) := by positivity
    have hα1 : 2 / ((window : ℚ) + 1) ≤ 1 := by
      rw [div_le_one (by positivity)]
      have : (1:ℚ) ≤ (window : ℚ) := by exact_mod_cast Nat.not_lt.mp hspan
      linarith
    obtain ⟨g, hg, l, hl, hz⟩ := mem_zipWith_exists _ _ _ hx
    have hgn : 0 ≤ g := ewma_nonneg hα0 hα1 _ (gains_nonneg p) g hg
    have hln : 0 ≤ l := ewma_nonneg hα0 hα1 _ (losses_nonneg p) l hl
    exact rsiPoint_bounds hgn hln x hz.symm

/-- Witness for `calculate_rsi_range`: on `[1, 2, 1]` with window 2 the RSI
series is `[NaN, 100, 25]` and the defined value `25` lies in `[0, 100]`. -/
theorem calculate_rsi_range_witness :
    calculate_rsi [1, 2, 1] 2 = Except.ok [none, some 100, some 25]
    ∧ (0 ≤ (25:ℚ) ∧ (25:ℚ) ≤ 100) := by
  have h : calculate_rsi [1, 2, 1] 2 = Except.ok [none, some 100, some 25] := by
    norm_num [calculate_rsi, gains, losses, ewma, ewmGo, rsiPoint]
  exact ⟨h, calculate_rsi_range [1, 2, 1] 2 _ h 25 (by simp)⟩

/-! Auxiliary lemmas about RSI on a constant-price (flat) series. -/

lemma zipWith_replicate_succ (f : ℚ → ℚ → ℚ) (c : ℚ) (h : f c c = 0) :
    ∀ n, List.zipWith f (c :: List.replicate n c) (List.replicate n c)
      = List.replicate n 0 := by
  intro n
  induction n with
  | zero => simp
  | succ n ih =>
      rw [List.replicate_succ, List.zipWith_cons_cons, h]
      exact congrArg (List.cons 0) ih

lemma gains_replicate (c : ℚ) (n : Nat) :
    gains (List.replicate n c) = List.replicate n 0 := by
  cases n with
  | zero => simp [gains]
  | succ n =>
      rw [List.replicate_succ, gains, List.replicate_succ]
      congr 1
      exact zipWith_replicate_succ _ c (by simp) n

lemma losses_replicate (c : ℚ) (n : Nat) :
    losses (List.replicate n c) = List.replicate n 0 := by
  cases n with
  | zero => simp [losses]
  | succ n =>
      rw [List.replicate_succ, losses, List.replicate_succ]
      congr 1
      exact zipWith_replicate_succ _ c (by simp) n

lemma ewmGo_zero (α : ℚ) : ∀ m, ewmGo α 0 (List.replicate m 0) = List.replicate m 0 := by
  intro m
  induction m with
  | zero => simp [ewmGo]
  | succ m ih =>
      rw [List.replicate_succ, ewmGo]
      simp only [mul_zero, add_zero]
      exact congrArg (List.cons 0) ih

lemma ewma_zero (α : ℚ) (n : Nat) :
    ewma α (List.replicate n 0) = List.replicate n 0 := by
  cases n with
  | zero => simp [ewma]
  | succ n =>
      rw [List.replicate_succ, ewma]
      exact congrArg (List.cons 0) (ewmGo_zero α n)

lemma zipWith_rsiPoint_zero : ∀ n,
    List.zipWith rsiPoint (List.replicate n (0:ℚ)) (List.replicate n (0:ℚ))
      = List.replicate n none := by
  intro n
  induction n with
  | zero => simp
  | succ n ih =>
      rw [List.replicate_succ, List.zipWith_cons_cons]
      have hpt : rsiPoint 0 0 = none := by simp [rsiPoint]
      rw [hpt]
      exact congrArg (List.cons none) ih

/-- On a constant-price series long enough to pass the warm-up check,
`calculate_rsi` returns an all-NaN series: both EWM averages are identically
zero, so every point is the `0/0 = NaN` case. -/
lemma calculate_rsi_flat (c : ℚ) (n window : Nat) (hw : 1 ≤ window)
    (hlen : window + 1 ≤ n) :
    calculate_rsi (List.replicate n c) window
      = Except.ok (List.replicate n none) := by
  unfold calculate_rsi
  rw [List.length_replicate]
  rw [if_neg (Nat.not_lt.mpr hlen), if_neg (Nat.not_lt.mpr hw)]
  simp only
  rw [gains_replicate, losses_replicate, ewma_zero, zipWith_rsiPoint_zero]

/-! Index and length bookkeeping for the RSI pipeline. -/

lemma ewmGo_length (α : ℚ) : ∀ (xs : List ℚ) (prev : ℚ),
    (ewmGo α prev xs).length = xs.length := by
  intro xs
  induction xs with
  | nil => intro prev; simp [ewmGo]
  | cons x xs ih => intro prev; rw [ewmGo]; simp [ih]

lemma ewma_length (α : ℚ) (xs : List ℚ) : (ewma α xs).length = xs.length := by
  cases xs with
  | nil => simp [ewma]
  | cons x xs => rw [ewma]; simp [ewmGo_length]

lemma gains_length (p : List ℚ) : (gains p).length = p.length := by
  cases p with
  | nil => simp [gains]
  | cons a rest => rw [gains]; simp [List.length_zipWith]

lemma losses_length (p : List ℚ) : (losses p).length = p.length := by
  cases p with
  | nil => simp [losses]
  | cons a rest => rw [losses]; simp [List.length_zipWith]

lemma getD_zipWith (f : ℚ → ℚ → Option ℚ) :
    ∀ (as bs : List ℚ) (i : Nat), i < as.length → i < bs.length →
      (List.zipWith f as bs).getD i none = f (as.getD i 0) (bs.getD i 0) := by
  intro as
  induction as with
  | nil => intro bs i h _; simp at h
  | cons a as ih =>
      intro bs i ha hb
      cases bs with
      | nil => simp at hb
      | cons b bs =>
          cases i with
          | zero => simp
          | succ i =>
              simp only [List.zipWith_cons_cons, List.getD_cons_succ]
              exact ih bs i (Nat.lt_of_succ_lt_succ ha) (Nat.lt_of_succ_lt_succ hb)

/-- C1 counterexample: on the constant series `[100, 100, 100, 100]` with
window 2 (so warm-up is complete at index 3), the RSI at index 3 is NaN
(undefined), not 50 as the claim requires for a flat market. -/
theorem calculate_rsi_flat_not_fifty :
    ¬ ∃ out, calculate_rsi [100, 100, 100, 100] 2 = Except.ok out
        ∧ out.getD 3 none = some 50 := by
  rintro ⟨out, hok, h3⟩
  have h : calculate_rsi [100, 100, 100, 100] 2
      = Except.ok [none, none, none, none] := by
    norm_num [calculate_rsi, gains, losses, ewma, ewmGo, rsiPoint]
  rw [h] at hok
  simp only [Except.ok.injEq] at hok
  subst hok
  simp at h3

/-- C1 as amended: past warm-up the RSI output is the pointwise
`rsiPoint` of the EWM average gains and losses; where the average loss is `0`
and the average gain is nonzero the value is `100`, where both averages are
`0` the value is undefined (NaN) — not 50 — and a constant-price series of
the same length yields an all-NaN RSI series. -/
theorem calculate_rsi_edge_policy (p : List ℚ) (window : Nat)
    (hw : 1 ≤ window) (hlen : window + 1 ≤ p.length) :
    ∃ out, calculate_rsi p window = Except.ok out
      ∧ (∀ i, i < p.length →
          out.getD i none =
            rsiPoint ((ewma (2 / ((window : ℚ) + 1)) (gains p)).getD i 0)
                     ((ewma (2 / ((window : ℚ) + 1)) (losses p)).getD i 0))
      ∧ (∀ g l : ℚ, l = 0 → g ≠ 0 → rsiPoint g l = some 100)
      ∧ (∀ g l : ℚ, l = 0 → g = 0 → rsiPoint g l = none)
      ∧ (∀ c : ℚ, calculate_rsi (List.replicate p.length c) window
            = Except.ok (List.replicate p.length none)) := by
  refine ⟨List.zipWith rsiPoint (ewma (2 / ((window : ℚ) + 1)) (gains p))
      (ewma (2 / ((window : ℚ) + 1)) (losses p)), ?_, ?_, ?_, ?_, ?_⟩
  · unfold calculate_rsi
    rw [if_neg (Nat.not_lt.mpr hlen), if_neg (Nat.not_lt.mpr hw)]
  · intro i hi
    exact getD_zipWith rsiPoint _ _ i
      (by rw [ewma_length, gains_length]; exact hi)
      (by rw [ewma_length, losses_length]; exact hi)
  · intro g l hl hg
    rw [rsiPoint, if_pos hl, if_neg hg]
  · intro g l hl hg
    rw [rsiPoint, if_pos hl, if_pos hg]
  · intro c
    exact calculate_rsi_flat c p.length window hw hlen

/-- Witness for `calculate_rsi_edge_policy`: its hypotheses hold for the
series `[1, 2, 1]` with window 2, where the RSI value at index 1 (average
loss still 0, average gain positive) is 100. -/
theorem calculate_rsi_edge_policy_witness :
    (1 ≤ 2 ∧ 2 + 1 ≤ ([1, 2, 1] : List ℚ).length)
    ∧ ∃ out, calculate_rsi [1, 2, 1] 2 = Except.ok out
        ∧ out.getD 1 none = some 100 := by
  refine ⟨⟨by norm_num, by norm_num⟩, ?_⟩
  obtain ⟨out, hok, hidx, h100, hnan, hflat⟩ :=
    calculate_rsi_edge_policy [1, 2, 1] 2 (by norm_num) (by norm_num)
  refine ⟨out, hok, ?_⟩
  rw [hidx 1 (by norm_num)]
  norm_num [gains, losses, ewma, ewmGo, rsiPoint]

/-! ## Run analysis (`calculations.identify_runs`, `identify_run_periods`)

Both functions share the same pipeline in the source: `diff`, `np.sign`
(`fillna(0)`), change points, `cumsum` streak ids, and grouping by streak id.
The grouping is embedded as a one-pass loop over the direction sequence that
extends the current maximal constant run or closes it, which produces exactly
the `cumsum`-groups in first-appearance order.  Dates are positional indices. -/

/-- `np.sign` of the day-to-day change `b - a`. -/
def dirOf (a b : ℚ) : Int := if a < b then 1 else if b < a then -1 else 0

/-- `np.sign(df['Close'].diff()).fillna(0)`: `0` in the leading NaN slot, the
sign of the daily change afterwards. -/
def directions : List ℚ → List Int
  | [] => []
  | a :: rest => 0 :: List.zipWith dirOf (a :: rest) rest

/-- One grouped run: positional start/end index, direction, length. -/
structure RunSegment where
  start : Nat
  stop : Nat
  direction : Int
  length : Nat
deriving DecidableEq

/-- Grouping loop: `cur` is the open run; an equal next direction extends it,
a different one closes it and opens a fresh length-1 run. -/
def segsLoop (cur : RunSegment) : List Int → List RunSegment
  | [] => [cur]
  | d :: ds =>
      if d = cur.direction then
        segsLoop ⟨cur.start, cur.stop + 1, cur.direction, cur.length + 1⟩ ds
      else
        cur :: segsLoop ⟨cur.stop + 1, cur.stop + 1, d, 1⟩ ds

/-- All `cumsum`-groups of a direction sequence starting at index `i`. -/
def segsFrom (i : Nat) : List Int → List RunSegment
  | [] => []
  | d :: ds => segsLoop ⟨i, i, d, 1⟩ ds

/-- `identify_run_periods(df)`: every streak group whose direction is nonzero,
in first-appearance order. -/
def identify_run_periods (p : List ℚ) : List RunSegment :=
  (segsFrom 0 (directions p)).filter (fun s => s.direction != 0)

/-- The dictionary returned by `identify_runs(df)`. -/
structure RunStats where
  up_streaks : List Nat
  down_streaks : List Nat
  total_up_days : Nat
  total_down_days : Nat
  longest_up_streak : Nat
  longest_down_streak : Nat
deriving DecidableEq

/-- `identify_runs(df)`: lengths of the direction-1 and direction-(-1) streak
groups, with their totals and maxima (`0` on an empty list of streaks). -/
def identify_runs (p : List ℚ) : RunStats :=
  let streaks := segsFrom 0 (directions p)
  let up := (streaks.filter (fun s => s.direction == 1)).map (fun s => s.length)
  let down := (streaks.filter (fun s => s.direction == -1)).map (fun s => s.length)
  { up_streaks := up
    down_streaks := down
    total_up_days := up.sum
    total_down_days := down.sum
    longest_up_streak := up.foldr max 0
    longest_down_streak := down.foldr max 0 }

/-- Days on which the close strictly exceeds the previous close. -/
def upDays (p : List ℚ) : Nat :=
  (List.zipWith (fun a b => decide (a < b)) p p.tail).count true

/-- Days on which the close is strictly below the previous close. -/
def downDays (p : List ℚ) : Nat :=
  (List.zipWith (fun a b => decide (b < a)) p p.tail).count true

/-- The grouping loop emits contiguous groups of pairwise different
directions, every group occupying at least one index, and the first group
keeping the open run's start and direction. -/
lemma segsLoop_inv : ∀ (ds : List Int) (cur : RunSegment), cur.start ≤ cur.stop →
    List.Chain' (fun s t => t.start = s.stop + 1 ∧ s.direction ≠ t.direction)
      (segsLoop cur ds)
    ∧ (∀ s ∈ segsLoop cur ds, s.start ≤ s.stop)
    ∧ ∃ h rest, segsLoop cur ds = h :: rest
        ∧ h.start = cur.start ∧ h.direction = cur.direction := by
  intro ds
  induction ds with
  | nil =>
      intro cur hc
      refine ⟨by simp [segsLoop], ?_, cur, [], rfl, rfl, rfl⟩
      intro s hs
      rw [segsLoop] at hs
      rw [List.mem_singleton.mp hs]
      exact hc
  | cons d ds ih =>
      intro cur hc
      by_cases hd : d = cur.direction
      · rw [segsLoop, if_pos hd]
        exact ih ⟨cur.start, cur.stop + 1, cur.direction, cur.length + 1⟩
          (Nat.le_succ_of_le hc)
      · rw [segsLoop, if_neg hd]
        obtain ⟨h1, h2, h, rest, heq, hstart, hdir⟩ :=
          ih ⟨cur.stop + 1, cur.stop + 1, d, 1⟩ (le_refl _)
        rw [heq]
        refine ⟨?_, ?_, cur, h :: rest, rfl, rfl, rfl⟩
        · rw [List.chain'_cons]
          refine ⟨⟨by rw [hstart], ?_⟩, heq ▸ h1⟩
          rw [hdir]
          exact fun hh => hd hh.symm
        · intro s hs
          rcases List.mem_cons.mp hs with h' | h'
          · rw [h']; exact hc
          · exact h2 s (by rw [heq]; exact h')

/-- Filtering a list of contiguous, direction-alternating segments leaves a
list in which adjacent survivors either differ in direction or are separated
by a gap of dropped indices. -/
lemma filter_chain (p : RunSegment → Bool) :
    ∀ (l : List RunSegment),
      List.Chain' (fun s t => t.start = s.stop + 1 ∧ s.direction ≠ t.direction) l →
      (∀ s ∈ l, s.start ≤ s.stop) →
      List.Chain' (fun s t => s.direction ≠ t.direction ∨ s.stop + 1 < t.start)
        (l.filter p)
      ∧ (∀ h t, l.head? = some h → (l.filter p).head? = some t →
          (t = h ∨ h.stop + 1 ≤ t.start)) := by
  intro l
  induction l with
  | nil => simp
  | cons s rest ih =>
      intro hch hse
      have hch' := (List.chain'_cons'.mp hch).2
      have hhd := (List.chain'_cons'.mp hch).1
      have hse' : ∀ x ∈ rest, x.start ≤ x.stop :=
        fun x hx => hse x (List.mem_cons_of_mem s hx)
      obtain ⟨ihc, ihh⟩ := ih hch' hse'
      rw [List.filter_cons]
      by_cases hp : p s
      · rw [if_pos hp]
        constructor
        · rw [List.chain'_cons']
          refine ⟨?_, ihc⟩
          intro t ht
          cases hrest : rest with
          | nil => rw [hrest] at ht; simp at ht
          | cons r rest' =>
              have hR : r.start = s.stop + 1 ∧ s.direction ≠ r.direction := by
                apply hhd
                rw [hrest]; rfl
              have hcase := ihh r t (by rw [hrest]; rfl) ht
              rcases hcase with hteq | hge
              · left; rw [hteq]; exact hR.2
              · right
                have hrs : r.start ≤ r.stop := hse' r (by rw [hrest]; exact List.mem_cons_self r rest')
                omega
        · intro h t hh ht
          simp only [List.head?_cons, Option.some.injEq] at hh ht
          left; rw [← ht]; exact hh
      · rw [if_neg hp]
        refine ⟨ihc, ?_⟩
        intro h t hh ht
        simp only [List.head?_cons, Option.some.injEq] at hh
        right
        cases hrest : rest with
        | nil => rw [hrest] at ht; simp at ht
        | cons r rest' =>
            have hR : r.start = s.stop + 1 ∧ s.direction ≠ r.direction := by
              apply hhd
              rw [hrest]; rfl
            have hcase := ihh r t (by rw [hrest]; rfl) ht
            have hrs : r.start ≤ r.stop := hse' r (by rw [hrest]; exact List.mem_cons_self r rest')
            rcases hcase with hteq | hge
            · rw [hteq, ← hh]; omega
            · rw [← hh]; omega

/-- C5 counterexample: on the prices `[1, 2, 3, 3, 4]` the analyzer reports
two consecutive segments (up-run over indices 1–2 and up-run at index 4,
separated only by the dropped flat index 3) with the same direction. -/
theorem identify_run_periods_alternation_counterexample :
    ¬ List.Chain' (fun s t : RunSegment => s.direction ≠ t.direction)
      (identify_run_periods [1, 2, 3, 3, 4]) := by
  have h : identify_run_periods [1, 2, 3, 3, 4]
      = [⟨1, 2, 1, 2⟩, ⟨4, 4, 1, 1⟩] := by decide
  rw [h]
  intro hch
  exact (List.chain'_pair.mp hch) rfl

/-- C5 as amended: adjacent reported segments differ in direction unless they
are separated by at least one dropped flat (zero-delta) index; in particular
any two reported segments that are contiguous in the index differ in
direction. -/
theorem identify_run_periods_alternation (p : List ℚ) :
    List.Chain' (fun s t => s.direction ≠ t.direction ∨ s.stop + 1 < t.start)
      (identify_run_periods p) := by
  unfold identify_run_periods
  cases hd : directions p with
  | nil => simp [segsFrom]
  | cons d ds =>
      rw [segsFrom]
      obtain ⟨h1, h2, _⟩ := segsLoop_inv ds ⟨0, 0, d, 1⟩ (le_refl 0)
      exact (filter_chain _ _ h1 h2).1

/-- Lengths of the direction-`d` groups emitted by the loop sum to the number
of direction-`d` entries still in the input, plus the open run when it has
direction `d`. -/
lemma segsLoop_count (d : Int) : ∀ (ds : List Int) (cur : RunSegment),
    (((segsLoop cur ds).filter (fun s => s.direction == d)).map
        (fun s => s.length)).sum
      = ds.count d + (if cur.direction = d then cur.length else 0) := by
  intro ds
  induction ds with
  | nil =>
      intro cur
      by_cases h : cur.direction = d <;> simp [segsLoop, List.filter_cons, h]
  | cons e ds ih =>
      intro cur
      by_cases he : e = cur.direction
      · rw [segsLoop, if_pos he, ih]
        by_cases hc : cur.direction = d
        · have hed : e = d := he.trans hc
          simp [List.count_cons, hc, hed]
          omega
        · have hed : ¬ e = d := fun h => hc (he.symm.trans h)
          simp [List.count_cons, hc, hed]
      · rw [segsLoop, if_neg he, List.filter_cons]
        by_cases hc : cur.direction = d
        · rw [if_pos (by simp [hc])]
          rw [List.map_cons, List.sum_cons, ih]
          by_cases hed : e = d
          · exact absurd (hed.trans hc.symm) he
          · simp [List.count_cons, hed, hc]
            omega
        · rw [if_neg (by simp [hc]), ih]
          by_cases hed : e = d <;> simp [List.count_cons, hed, hc]

/-- Lengths of the direction-`d` groups of a full direction sequence sum to
the number of its direction-`d` entries. -/
lemma segs_count (d : Int) (l : List Int) :
    (((segsFrom 0 l).filter (fun s => s.direction == d)).map
        (fun s => s.length)).sum = l.count d := by
  cases l with
  | nil => simp [segsFrom]
  | cons e ds =>
      rw [segsFrom, segsLoop_count]
      by_cases hed : e = d <;> simp [List.count_cons, hed]

lemma count_zipWith_dir (f : ℚ → ℚ → Int) (g : ℚ → ℚ → Bool) (v : Int)
    (h : ∀ a b, (f a b == v) = g a b) :
    ∀ (l₁ l₂ : List ℚ),
      (List.zipWith f l₁ l₂).count v = (List.zipWith g l₁ l₂).count true := by
  intro l₁
  induction l₁ with
  | nil => intro l₂; simp
  | cons a l₁ ih =>
      intro l₂
      cases l₂ with
      | nil => simp
      | cons b l₂ =>
          simp only [List.zipWith_cons_cons, List.count_cons, ih l₂, h a b]
          by_cases hg : g a b = true <;> simp [hg]

lemma dirOf_up (a b : ℚ) : (dirOf a b == 1) = decide (a < b) := by
  by_cases hab : a < b
  · simp [dirOf, hab]
  · by_cases hba : b < a <;> simp [dirOf, hab, hba]

lemma dirOf_down (a b : ℚ) : (dirOf a b == -1) = decide (b < a) := by
  by_cases hab : a < b
  · have hba : ¬ b < a := not_lt.mpr (le_of_lt hab)
    simp [dirOf, hab, hba]
  · by_cases hba : b < a <;> simp [dirOf, hab, hba]

/-- C10: `identify_runs` and `identify_run_periods` agree — `up_streaks` is,
in order, the lengths of the direction-1 segments of `identify_run_periods`,
`down_streaks` the lengths of the direction-(-1) segments, and the totals
count exactly the days whose close strictly exceeds (respectively is strictly
below) the previous close. -/
theorem identify_runs_agrees (p : List ℚ) :
    (identify_runs p).up_streaks
      = ((identify_run_periods p).filter (fun s => s.direction == 1)).map
          (fun s => s.length)
    ∧ (identify_runs p).down_streaks
      = ((identify_run_periods p).filter (fun s => s.direction == -1)).map
          (fun s => s.length)
    ∧ (identify_runs p).total_up_days = upDays p
    ∧ (identify_runs p).total_down_days = downDays p := by
  have hfilter : ∀ v : Int, v ≠ 0 →
      ((segsFrom 0 (directions p)).filter (fun s => s.direction == v))
        = ((segsFrom 0 (directions p)).filter (fun s => s.direction != 0)).filter
            (fun s => s.direction == v) := by
    intro v hv
    rw [List.filter_filter]
    apply List.filter_congr
    intro s _
    by_cases h : s.direction = v
    · simp [h, hv]
    · simp [h]
  have hcount : ∀ v : Int, v ≠ 0 → (g : ℚ → ℚ → Bool) →
      (∀ a b, (dirOf a b == v) = g a b) →
      (((segsFrom 0 (directions p)).filter (fun s => s.direction == v)).map
          (fun s => s.length)).sum
        = (List.zipWith g p p.tail).count true := by
    intro v hv g hg
    rw [segs_count]
    cases p with
    | nil => simp [directions]
    | cons a rest =>
        rw [directions]
        rw [List.count_cons]
        rw [count_zipWith_dir dirOf g v hg]
        simp [hv.symm]
  refine ⟨?_, ?_, ?_, ?_⟩
  · rw [identify_runs, identify_run_periods]
    exact congrArg (List.map _) (hfilter 1 (by norm_num))
  · rw [identify_runs, identify_run_periods]
    exact congrArg (List.map _) (hfilter (-1) (by norm_num))
  · rw [identify_runs, upDays]
    exact hcount 1 (by norm_num) _ dirOf_up
  · rw [identify_runs, downDays]
    exact hcount (-1) (by norm_num) _ dirOf_down

/-! ## Best-stock selection (`compare_logic.choose_best_stock`) -/

/-- Python `round(q, 2)`: round half to even at two decimal places. -/
def roundHalfEven (q : ℚ) : ℤ :=
  if q - (Int.floor q : ℚ) < 1/2 then Int.floor q
  else if (1:ℚ)/2 < q - (Int.floor q : ℚ) then Int.floor q + 1
  else if Int.floor q % 2 = 0 then Int.floor q else Int.floor q + 1

def round2 (q : ℚ) : ℚ := (roundHalfEven (q * 100) : ℚ) / 100

/-- A metrics record together with its attached `result["score"]`. -/
structure ScoredMetrics where
  base : StockMetrics
  score : ℚ
deriving DecidableEq

/-- `result["score"] = round(stock_score, 2)`. -/
def attachScore (r : StockMetrics) : ScoredMetrics := ⟨r, round2 (score_stock r)⟩

/-- Loop of `choose_best_stock`: attach the rounded score to each record in
order, and keep the record whose unrounded score strictly exceeds the running
maximum.  The running maximum starts at `-inf`, modelled by `none`, which the
first record always beats. -/
def chooseBestLoop (acc : List ScoredMetrics)
    (best : Option (ScoredMetrics × ℚ)) :
    List StockMetrics → List ScoredMetrics × Option (ScoredMetrics × ℚ)
  | [] => (acc.reverse, best)
  | r :: rest =>
      let s := score_stock r
      let sr := attachScore r
      match best with
      | none => chooseBestLoop (sr :: acc) (some (sr, s)) rest
      | some (b, hs) =>
          if hs < s then chooseBestLoop (sr :: acc) (some (sr, s)) rest
          else chooseBestLoop (sr :: acc) (some (b, hs)) rest

/-- `choose_best_stock(all_results)`: `None` for an empty list (before any
score is attached); otherwise the mutated list paired with the winner. -/
def choose_best_stock (l : List StockMetrics) :
    List ScoredMetrics × Option ScoredMetrics :=
  if l.isEmpty then ([], none)
  else
    let res := chooseBestLoop [] none l
    (res.1, res.2.map Prod.fst)

/-- One comparison step of the running maximum, as a fold function. -/
def bestStep (best : ScoredMetrics × ℚ) (r : StockMetrics) : ScoredMetrics × ℚ :=
  if best.2 < score_stock r then (attachScore r, score_stock r) else best

lemma chooseBestLoop_fst : ∀ (l : List StockMetrics) (acc : List ScoredMetrics)
    (best : Option (ScoredMetrics × ℚ)),
    (chooseBestLoop acc best l).1 = acc.reverse ++ l.map attachScore := by
  intro l
  induction l with
  | nil => intro acc best; simp [chooseBestLoop]
  | cons r rest ih =>
      intro acc best
      cases best with
      | none =>
          have hstep : chooseBestLoop acc none (r :: rest)
              = chooseBestLoop (attachScore r :: acc)
                  (some (attachScore r, score_stock r)) rest := rfl
          rw [hstep, ih]
          simp
      | some b =>
          obtain ⟨sb, qb⟩ := b
          have hstep : chooseBestLoop acc (some (sb, qb)) (r :: rest)
              = if qb < score_stock r then
                  chooseBestLoop (attachScore r :: acc)
                    (some (attachScore r, score_stock r)) rest
                else
                  chooseBestLoop (attachScore r :: acc) (some (sb, qb)) rest := rfl
          rw [hstep]
          split_ifs <;> rw [ih] <;> simp

lemma chooseBestLoop_snd : ∀ (l : List StockMetrics) (acc : List ScoredMetrics)
    (b : ScoredMetrics × ℚ),
    (chooseBestLoop acc (some b) l).2 = some (l.foldl bestStep b) := by
  intro l
  induction l with
  | nil => intro acc b; simp [chooseBestLoop]
  | cons r rest ih =>
      intro acc b
      obtain ⟨sb, qb⟩ := b
      rw [chooseBestLoop, List.foldl_cons]
      simp only [bestStep]
      split_ifs with h <;> simp only [ih]

/-- The fold keeps its seed when nothing beats it, and otherwise returns the
first record attaining the strict maximum among the seed and the list. -/
lemma foldl_bestStep_spec : ∀ (l : List StockMetrics) (b : ScoredMetrics) (q : ℚ),
    (l.foldl bestStep (b, q) = (b, q) ∧ ∀ x ∈ l, score_stock x ≤ q)
    ∨ ∃ i, ∃ h : i < l.length,
        l.foldl bestStep (b, q)
          = (attachScore (l.get ⟨i, h⟩), score_stock (l.get ⟨i, h⟩))
        ∧ q < score_stock (l.get ⟨i, h⟩)
        ∧ (∀ j, ∀ hj : j < l.length, j < i →
            score_stock (l.get ⟨j, hj⟩) < score_stock (l.get ⟨i, h⟩))
        ∧ (∀ j, ∀ hj : j < l.length,
            score_stock (l.get ⟨j, hj⟩) ≤ score_stock (l.get ⟨i, h⟩)) := by
  intro l
  induction l with
  | nil => intro b q; left; exact ⟨rfl, by simp⟩
  | cons r rest ih =>
      intro b q
      rw [List.foldl_cons]
      by_cases hq : q < score_stock r
      · rw [bestStep, if_pos hq]
        rcases ih (attachScore r) (score_stock r) with ⟨heq, hall⟩ | ⟨i, h, heq, hlt, hstrict, hmax⟩
        · right
          refine ⟨0, by simp, by simpa using heq, hq, ?_, ?_⟩
          · intro j hj hj0; omega
          · intro j hj
            cases j with
            | zero => simp
            | succ k =>
                have hk : k < rest.length := by simpa using hj
                simpa using hall (rest.get ⟨k, hk⟩) (rest.get_mem k hk)
        · right
          refine ⟨i + 1, ?_, ?_, ?_, ?_, ?_⟩
          · simpa using Nat.succ_lt_succ h
          · simpa using heq
          · simpa using lt_trans hq hlt
          · intro j hj hji
            cases j with
            | zero => simpa using hlt
            | succ k =>
                have hk : k < rest.length := by simpa using hj
                simpa using hstrict k hk (Nat.lt_of_succ_lt_succ hji)
          · intro j hj
            cases j with
            | zero => simpa using le_of_lt hlt
            | succ k =>
                have hk : k < rest.length := by simpa using hj
                simpa using hmax k hk
      · rw [bestStep, if_neg hq]
        rcases ih b q with ⟨heq, hall⟩ | ⟨i, h, heq, hlt, hstrict, hmax⟩
        · left
          refine ⟨heq, ?_⟩
          intro x hx
          rcases List.mem_cons.mp hx with h' | h'
          · rw [h']; exact le_of_not_lt hq
          · exact hall x h'
        · right
          refine ⟨i + 1, ?_, ?_, ?_, ?_, ?_⟩
          · simpa using Nat.succ_lt_succ h
          · simpa using heq
          · simpa using hlt
          · intro j hj hji
            cases j with
            | zero =>
                have : score_stock r ≤ q := le_of_not_lt hq
                simpa using lt_of_le_of_lt this hlt
            | succ k =>
                have hk : k < rest.length := by simpa using hj
                simpa using hstrict k hk (Nat.lt_of_succ_lt_succ hji)
          · intro j hj
            cases j with
            | zero =>
                have : score_stock r ≤ q := le_of_not_lt hq
                simpa using le_of_lt (lt_of_le_of_lt this hlt)
            | succ k =>
                have hk : k < rest.length := by simpa using hj
                simpa using hmax k hk

/-- C4: `choose_best_stock` returns `None` on the empty list without attaching
anything; on a non-empty list it attaches the rounded score to every element
in order and returns the element with the strictly greatest (unrounded)
score, the earliest in input order on ties; a singleton returns its element
with the score attached. -/
theorem choose_best_stock_spec (l : List StockMetrics) :
    (l = [] → choose_best_stock l = ([], none))
    ∧ (∀ a, choose_best_stock [a] = ([attachScore a], some (attachScore a)))
    ∧ (l ≠ [] →
        (choose_best_stock l).1 = l.map attachScore
        ∧ ∃ i, ∃ h : i < l.length,
            (choose_best_stock l).2 = some (attachScore (l.get ⟨i, h⟩))
            ∧ (∀ j, ∀ hj : j < l.length, j < i →
                score_stock (l.get ⟨j, hj⟩) < score_stock (l.get ⟨i, h⟩))
            ∧ (∀ j, ∀ hj : j < l.length,
                score_stock (l.get ⟨j, hj⟩) ≤ score_stock (l.get ⟨i, h⟩))) := by
  refine ⟨?_, ?_, ?_⟩
  · intro h; rw [h]; rfl
  · intro a; rfl
  · intro hne
    cases l with
    | nil => exact absurd rfl hne
    | cons r rest =>
        constructor
        · rw [choose_best_stock, if_neg (by simp)]
          simp only [chooseBestLoop]
          rw [chooseBestLoop_fst]
          simp
        · have hsnd : (choose_best_stock (r :: rest)).2
              = (rest.foldl bestStep (attachScore r, score_stock r)).1 := by
            rw [choose_best_stock, if_neg (by simp)]
            simp only [chooseBestLoop]
            rw [chooseBestLoop_snd]
            rfl
          rcases foldl_bestStep_spec rest (attachScore r) (score_stock r) with
            ⟨heq, hall⟩ | ⟨i, h, heq, hlt, hstrict, hmax⟩
          · refine ⟨0, by simp, ?_, ?_, ?_⟩
            · rw [hsnd, heq]; simp
            · intro j hj hj0; omega
            · intro j hj
              cases j with
              | zero => simp
              | succ k =>
                  have hk : k < rest.length := by simpa using hj
                  simpa using hall (rest.get ⟨k, hk⟩) (rest.get_mem k hk)
          · refine ⟨i + 1, ?_, ?_, ?_, ?_⟩
            · simpa using Nat.succ_lt_succ h
            · rw [hsnd, heq]; simp
            · intro j hj hji
              cases j with
              | zero => simpa using hlt
              | succ k =>
                  have hk : k < rest.length := by simpa using hj
                  simpa using hstrict k hk (Nat.lt_of_succ_lt_succ hji)
            · intro j hj
              cases j with
              | zero => simpa using le_of_lt hlt
              | succ k =>
                  have hk : k < rest.length := by simpa using hj
                  simpa using hmax k hk

/-- Witness for `choose_best_stock_spec`: the empty-list hypothesis and the
non-empty-list hypothesis each discharged on a concrete input — two records
that differ only in ticker tie on score, and both get their score attached. -/
theorem choose_best_stock_spec_witness :
    choose_best_stock ([] : List StockMetrics) = ([], none)
    ∧ (choose_best_stock
        [⟨"A", some 10, some 1, some 2, "Neutral", some 50⟩,
         ⟨"B", some 10, some 1, some 2, "Neutral", some 50⟩]).1
      = [attachScore ⟨"A", some 10, some 1, some 2, "Neutral", some 50⟩,
         attachScore ⟨"B", some 10, some 1, some 2, "Neutral", some 50⟩] := by
  constructor
  · exact (choose_best_stock_spec []).1 rfl
  · have h := ((choose_best_stock_spec
      [⟨"A", some 10, some 1, some 2, "Neutral", some 50⟩,
       ⟨"B", some 10, some 1, some 2, "Neutral", some 50⟩]).2.2 (by simp)).1
    simpa using h

/-! ## SMA (`calculations.calculate_sma`) and Bollinger Bands
(`calculations.calculate_bollinger_bands`)

`calculate_sma` is a bare `df['Close'].rolling(window=window).mean()`; pandas
validates the window (`ValueError` for a negative one, all-NaN output for a
zero-observation window) and defines the mean only where the window is full.
The rolling sample standard deviation is `sqrt` of the `ddof = 1` sample
variance; the square root itself has no exact rational counterpart, so the
Bollinger embedding abstracts it as a function parameter `sqrtFn`, of which
the proofs use only that it maps nonnegative values to nonnegative values,
exactly as the IEEE-754 `sqrt` does on the nonnegative variance. -/

/-- The closing prices inside the width-`w` window ending at index `i`. -/
def windowAt (xs : List ℚ) (w i : Nat) : List ℚ := (xs.take (i+1)).drop (i+1-w)

/-- pandas `Series.rolling(window=w).mean()` for `w ≥ 0`: the mean of the full
window ending at each index, NaN during warm-up and everywhere when `w = 0`. -/
def rollingMean (xs : List ℚ) (w : Nat) : List (Option ℚ) :=
  (List.range xs.length).map (fun i =>
    if 1 ≤ w ∧ w ≤ i + 1 then some ((windowAt xs w i).sum / (w : ℚ)) else none)

/-- The `ddof = 1` sample variance of the full window ending at each index
(the square of pandas `Series.rolling(window=w).std()`), NaN during warm-up
and for `w ≤ 1` where the `0/0` variance is NaN. -/
def rollingVar (xs : List ℚ) (w : Nat) : List (Option ℚ) :=
  (List.range xs.length).map (fun i =>
    if 2 ≤ w ∧ w ≤ i + 1 then
      some (((windowAt xs w i).map
        (fun x => (x - (windowAt xs w i).sum / (w : ℚ))^2)).sum / ((w : ℚ) - 1))
    else none)

/-- `calculate_sma(df, window)` from `src/calculations.py`. -/
def calculate_sma (xs : List ℚ) (window : Int) : Except String (List (Option ℚ)) :=
  if window < 0 then .error "window must be an integer 0 or greater"
  else .ok (rollingMean xs window.toNat)

/-- Pointwise combination of two indicator series, NaN-propagating. -/
def optCombine (f : ℚ → ℚ → ℚ) (m s : Option ℚ) : Option ℚ :=
  match m, s with
  | some mv, some sv => some (f mv sv)
  | _, _ => none

/-- `calculate_bollinger_bands(df, window, num_std)` from
`src/calculations.py`: three all-NaN series when `len(df) < window`, else
`(sma + std*num_std, sma, sma - std*num_std)`. -/
def calculate_bollinger_bands (sqrtFn : ℚ → ℚ) (xs : List ℚ) (window : Nat)
    (numStd : ℚ) : List (Option ℚ) × List (Option ℚ) × List (Option ℚ) :=
  if xs.length < window then
    (List.replicate xs.length none, List.replicate xs.length none,
     List.replicate xs.length none)
  else
    let sma := rollingMean xs window
    let std := (rollingVar xs window).map (Option.map sqrtFn)
    (List.zipWith (optCombine (fun m s => m + s * numStd)) sma std,
     sma,
     List.zipWith (optCombine (fun m s => m - s * numStd)) sma std)

/-- C6 counterexample: `calculate_sma` on the one-element series with window
`-1` raises (pandas `ValueError`) instead of returning an all-undefined
series. -/
theorem calculate_sma_negative_window_raises :
    ¬ ∃ out : List (Option ℚ), calculate_sma [1] (-1) = Except.ok out := by
  rintro ⟨out, h⟩
  rw [calculate_sma, if_pos (by norm_num)] at h
  exact absurd h (by simp)

lemma rollingMean_zero_window (xs : List ℚ) :
    rollingMean xs 0 = List.replicate xs.length none := by
  have hcongr : (List.range xs.length).map (fun i =>
        if 1 ≤ 0 ∧ 0 ≤ i + 1 then some ((windowAt xs 0 i).sum / ((0:Nat) : ℚ)) else none)
      = (List.range xs.length).map (fun _ => (none : Option ℚ)) := by
    apply List.map_congr_left
    intro i _
    simp
  rw [rollingMean, hcongr, List.map_const']
  simp

/-- C6 as amended: with a window of `0` (or any window on the empty series)
`calculate_sma` returns an all-undefined series of the input's length without
raising, but a strictly negative window is rejected by pandas with a
`ValueError` rather than producing a series. -/
theorem calculate_sma_degenerate (xs : List ℚ) (w : Int) :
    (w < 0 → calculate_sma xs w = Except.error "window must be an integer 0 or greater")
    ∧ (0 ≤ w → xs = [] → calculate_sma xs w = Except.ok [])
    ∧ calculate_sma xs 0 = Except.ok (List.replicate xs.length none) := by
  refine ⟨?_, ?_, ?_⟩
  · intro h; rw [calculate_sma, if_pos h]
  · intro hw hxs
    subst hxs
    rw [calculate_sma, if_neg (not_lt.mpr hw)]
    simp [rollingMean]
  · rw [calculate_sma, if_neg (by norm_num)]
    rw [show ((0:Int).toNat) = 0 from rfl, rollingMean_zero_window]

/-- Witness for `calculate_sma_degenerate`: the three hypotheses discharged on
concrete inputs. -/
theorem calculate_sma_degenerate_witness :
    ((-1 : Int) < 0
      ∧ calculate_sma [1] (-1) = Except.error "window must be an integer 0 or greater")
    ∧ ((0:Int) ≤ 3 ∧ calculate_sma ([] : List ℚ) 3 = Except.ok [])
    ∧ calculate_sma [1, 2] 0 = Except.ok [none, none] := by
  refine ⟨⟨by norm_num, (calculate_sma_degenerate [1] (-1)).1 (by norm_num)⟩,
    ⟨by norm_num, (calculate_sma_degenerate [] 3).2.1 (by norm_num) rfl⟩, ?_⟩
  have h := (calculate_sma_degenerate [1, 2] 0).2.2
  simpa using h

lemma getD_replicate_none : ∀ (n i : Nat),
    (List.replicate n (none : Option ℚ)).getD i none = none := by
  intro n
  induction n with
  | zero => intro i; simp
  | succ n ih =>
      intro i
      cases i with
      | zero => simp
      | succ k => rw [List.replicate_succ, List.getD_cons_succ]; exact ih k

lemma getD_zipWith_optCombine (f : ℚ → ℚ → ℚ) :
    ∀ (as bs : List (Option ℚ)) (i : Nat) (u : ℚ),
      (List.zipWith (optCombine f) as bs).getD i none = some u →
      ∃ mv sv, as.getD i none = some mv ∧ bs.getD i none = some sv ∧ u = f mv sv := by
  intro as
  induction as with
  | nil => intro bs i u h; simp at h
  | cons a as ih =>
      intro bs i u h
      cases bs with
      | nil => simp at h
      | cons b bs =>
          cases i with
          | zero =>
              simp only [List.zipWith_cons_cons, List.getD_cons_zero] at h ⊢
              cases a with
              | none => simp [optCombine] at h
              | some mv =>
                  cases b with
                  | none => simp [optCombine] at h
                  | some sv =>
                      refine ⟨mv, sv, rfl, rfl, ?_⟩
                      simp only [optCombine, Option.some.injEq] at h
                      exact h.symm
          | succ k =>
              simp only [List.zipWith_cons_cons, List.getD_cons_succ] at h ⊢
              exact ih bs k u h

lemma getD_map_optmap (g : ℚ → ℚ) : ∀ (l : List (Option ℚ)) (i : Nat),
    (l.map (Option.map g)).getD i none = (l.getD i none).map g := by
  intro l
  induction l with
  | nil => intro i; simp
  | cons a l ih =>
      intro i
      cases i with
      | zero => simp
      | succ k =>
          simp only [List.map_cons, List.getD_cons_succ]
          exact ih k

lemma rollingVar_nonneg (xs : List ℚ) (w : Nat) :
    ∀ i v, (rollingVar xs w).getD i none = some v → 0 ≤ v := by
  intro i v h
  rw [rollingVar, List.getD_eq_getElem?_getD, List.getElem?_map] at h
  by_cases hi : i < xs.length
  · rw [List.getElem?_range hi] at h
    simp only [Option.map_some', Option.getD_some] at h
    split_ifs at h with hc
    · simp only [Option.some.injEq] at h
      subst h
      apply div_nonneg
      · apply List.sum_nonneg
        intro y hy
        obtain ⟨x, hx, hxy⟩ := List.mem_map.mp hy
        rw [← hxy]
        positivity
      · have h2 : (2:ℚ) ≤ (w:ℚ) := by exact_mod_cast hc.1
        linarith
  · rw [List.getElem?_eq_none (by simpa using not_lt.mp hi)] at h
    simp at h

lemma rollingMean_short (xs : List ℚ) (w : Nat) (h : xs.length < w) :
    rollingMean xs w = List.replicate xs.length none := by
  have hcongr : (List.range xs.length).map (fun i =>
        if 1 ≤ w ∧ w ≤ i + 1 then some ((windowAt xs w i).sum / (w : ℚ)) else none)
      = (List.range xs.length).map (fun _ => (none : Option ℚ)) := by
    apply List.map_congr_left
    intro i hi
    have hi' : i < xs.length := List.mem_range.mp hi
    have : ¬ (1 ≤ w ∧ w ≤ i + 1) := by omega
    rw [if_neg this]
  rw [rollingMean, hcongr, List.map_const']
  simp

/-- C7: with `len(series) < window` all three Bollinger bands are
all-undefined series; the middle band equals the rolling mean — hence
`calculate_sma` of the same series and window — exactly; and wherever all
three bands are defined `lower ≤ middle ≤ upper`, for any nonnegative-valued
square root and `num_std ≥ 0`. -/
theorem calculate_bollinger_bands_spec (sqrtFn : ℚ → ℚ) (xs : List ℚ)
    (window : Nat) (numStd : ℚ)
    (hsqrt : ∀ x : ℚ, 0 ≤ x → 0 ≤ sqrtFn x) (hnum : 0 ≤ numStd) :
    (xs.length < window →
      calculate_bollinger_bands sqrtFn xs window numStd
        = (List.replicate xs.length none, List.replicate xs.length none,
           List.replicate xs.length none))
    ∧ (calculate_bollinger_bands sqrtFn xs window numStd).2.1
        = rollingMean xs window
    ∧ calculate_sma xs (window : Int) = Except.ok (rollingMean xs window)
    ∧ (∀ i : Nat, ∀ u m l : ℚ,
        (calculate_bollinger_bands sqrtFn xs window numStd).1.getD i none = some u →
        (calculate_bollinger_bands sqrtFn xs window numStd).2.1.getD i none = some m →
        (calculate_bollinger_bands sqrtFn xs window numStd).2.2.getD i none = some l →
        l ≤ m ∧ m ≤ u) := by
  refine ⟨?_, ?_, ?_, ?_⟩
  · intro h
    rw [calculate_bollinger_bands, if_pos h]
  · by_cases h : xs.length < window
    · rw [calculate_bollinger_bands, if_pos h]
      exact (rollingMean_short xs window h).symm
    · rw [calculate_bollinger_bands, if_neg h]
  · rw [calculate_sma, if_neg (by omega)]
    rw [show ((window : Int).toNat) = window from Int.toNat_natCast window]
  · intro i u m l hu hm hl
    by_cases h : xs.length < window
    · rw [calculate_bollinger_bands, if_pos h] at hu
      rw [getD_replicate_none] at hu
      exact absurd hu (by simp)
    · rw [calculate_bollinger_bands, if_neg h] at hu hm hl
      simp only at hu hm hl
      obtain ⟨mv, sv, hmv, hsv, hueq⟩ := getD_zipWith_optCombine _ _ _ _ _ hu
      obtain ⟨mv', sv', hmv', hsv', hleq⟩ := getD_zipWith_optCombine _ _ _ _ _ hl
      have hmm : m = mv := Option.some_inj.mp (hm.symm.trans hmv)
      have hmve : mv' = mv := Option.some_inj.mp (hmv'.symm.trans hmv)
      have hsve : sv' = sv := Option.some_inj.mp (hsv'.symm.trans hsv)
      have hsv0 : 0 ≤ sv := by
        rw [getD_map_optmap] at hsv
        obtain ⟨v, hv, hveq⟩ := Option.map_eq_some'.mp hsv
        rw [← hveq]
        exact hsqrt v (rollingVar_nonneg xs window i v hv)
      have hprod : 0 ≤ sv * numStd := mul_nonneg hsv0 hnum
      constructor
      · rw [hleq, hmve, hsve, hmm]; linarith
      · rw [hueq, hmm]; linarith

/-- Witness for `calculate_bollinger_bands_spec`: with the identity as the
(nonnegative-preserving) square root and `num_std = 2`, the short series
`[1]` with window 2 gives three all-undefined bands, and on `[1, 2, 3]` the
bands at index 1 are `(5/2, 3/2, 1/2)`, which are correctly ordered. -/
theorem calculate_bollinger_bands_spec_witness :
    (∀ x : ℚ, 0 ≤ x → 0 ≤ (fun q => q) x) ∧ (0 ≤ (2:ℚ))
    ∧ calculate_bollinger_bands (fun q => q) [1] 2 2 = ([none], [none], [none])
    ∧ ((1/2 : ℚ) ≤ 3/2 ∧ (3/2 : ℚ) ≤ 5/2) := by
  refine ⟨fun x hx => hx, by norm_num, ?_, ?_⟩
  · have h := (calculate_bollinger_bands_spec (fun q => q) [1] 2 2
      (fun x hx => hx) (by norm_num)).1 (by norm_num)
    simpa using h
  · exact (calculate_bollinger_bands_spec (fun q => q) [1, 2, 3] 2 2
      (fun x hx => hx) (by norm_num)).2.2.2 1 (5/2) (3/2) (1/2)
      (by norm_num [calculate_bollinger_bands, rollingMean, rollingVar,
        windowAt, List.range_succ, optCombine])
      (by norm_num [calculate_bollinger_bands, rollingMean, windowAt,
        List.range_succ])
      (by norm_num [calculate_bollinger_bands, rollingMean, rollingVar,
        windowAt, List.range_succ, optCombine])

/-! ## Portfolio returns (`portfolio_analyzer.calculate_portfolio_returns`)

A fetched price history is a list of `(date, close)` pairs with abstract
`Nat` date codes; a return series carries `Option ℚ` values (`none` = NaN).
The loop mirrors the source: the first loaded stock's weighted daily returns
initialise `portfolio_returns`, and each further stock is reindexed to the
*current* index (the first stock's dates) with `fill_value = 0` — the fill
applies only to absent dates, not to NaN values at present dates. -/

abbrev PSeries := List (Nat × ℚ)

abbrev DSeries := List (Nat × Option ℚ)

/-- Tail of `pct_change`: `value/prev - 1` at each date after the first. -/
def dailyReturnsGo (prev : ℚ) : PSeries → DSeries
  | [] => []
  | (d, v) :: rest => (d, some (v / prev - 1)) :: dailyReturnsGo v rest

/-- `calculate_daily_returns(df)` on a date-indexed series: `pct_change`,
NaN at the first date. -/
def calculate_daily_returns : PSeries → DSeries
  | [] => []
  | (d, v) :: rest => (d, none) :: dailyReturnsGo v rest

/-- First-match lookup of a date in a series. -/
def lookupDate (d : Nat) : DSeries → Option (Option ℚ)
  | [] => none
  | (e, v) :: rest => if e = d then some v else lookupDate d rest

/-- `src.reindex(index, fill_value=0)`: the source's value (NaN included) at
every present date of the target index, and `0` at absent dates. -/
def reindex0 (src : DSeries) (index : List Nat) : DSeries :=
  index.map (fun d => (d, match lookupDate d src with
    | some v => v
    | none => some 0))

/-- `series * weight`, NaN-propagating. -/
def smulSeries (w : ℚ) (s : DSeries) : DSeries :=
  s.map (fun q => (q.1, q.2.map (fun x => w * x)))

/-- NaN-propagating addition of two values. -/
def optAdd : Option ℚ → Option ℚ → Option ℚ
  | some x, some y => some (x + y)
  | _, _ => none

/-- Pointwise `+=` of two series over the same positional index. -/
def addSeries (a b : DSeries) : DSeries :=
  List.zipWith (fun q r => (q.1, optAdd q.2 r.2)) a b

/-- The accumulation loop over the remaining loaded stocks. -/
def portfolioLoop (acc : DSeries) : List (PSeries × ℚ) → DSeries
  | [] => acc
  | (p, w) :: rest =>
      portfolioLoop
        (addSeries acc
          (smulSeries w (reindex0 (calculate_daily_returns p) (acc.map Prod.fst))))
        rest

/-- `PortfolioAnalyzer.calculate_portfolio_returns` over the loaded stocks in
insertion order: `None` when no stock contributes. -/
def calculate_portfolio_returns : List (PSeries × ℚ) → Option DSeries
  | [] => none
  | (p, w) :: rest =>
      some (portfolioLoop (smulSeries w (calculate_daily_returns p)) rest)

/-- One stock's per-date contribution: its weighted return at a present date
(NaN stays NaN), `0` at an absent date. -/
def contrib (d : Nat) (s : PSeries × ℚ) : Option ℚ :=
  match lookupDate d (calculate_daily_returns s.1) with
  | some v => v.map (fun x => s.2 * x)
  | none => some 0

/-- The rational value of a defined contribution. -/
def contribQ (d : Nat) (s : PSeries × ℚ) : ℚ :=
  match lookupDate d (calculate_daily_returns s.1) with
  | some (some x) => s.2 * x
  | _ => 0

/-- C8 counterexample: two one-overlap stocks A = {0, 1} and B = {1, 2} with
weight 1 each.  The output is indexed by whichever stock comes first
(`[0, 1]` versus `[1, 2]`), never by the common date index `{1}`, so the
result is not defined on the common index and depends on processing order. -/
theorem calculate_portfolio_returns_counterexample :
    (calculate_portfolio_returns
        [([(0, 100), (1, 110)], 1), ([(1, 100), (2, 120)], 1)]).map
        (fun s => s.map Prod.fst) = some [0, 1]
    ∧ (calculate_portfolio_returns
        [([(1, 100), (2, 120)], 1), ([(0, 100), (1, 110)], 1)]).map
        (fun s => s.map Prod.fst) = some [1, 2]
    ∧ ([0, 1] : List Nat) ≠ [1, 2] ∧ ([0, 1] : List Nat) ≠ [1] := by
  refine ⟨?_, ?_, by decide, by decide⟩ <;>
    norm_num [calculate_portfolio_returns, portfolioLoop, calculate_daily_returns,
      dailyReturnsGo, smulSeries, reindex0, addSeries, lookupDate, optAdd]

lemma dailyReturnsGo_fst : ∀ (p : PSeries) (prev : ℚ),
    (dailyReturnsGo prev p).map Prod.fst = p.map Prod.fst := by
  intro p
  induction p with
  | nil => intro prev; simp [dailyReturnsGo]
  | cons q rest ih =>
      intro prev
      obtain ⟨d, v⟩ := q
      rw [dailyReturnsGo]
      simp [ih v]

lemma calculate_daily_returns_fst (p : PSeries) :
    (calculate_daily_returns p).map Prod.fst = p.map Prod.fst := by
  cases p with
  | nil => simp [calculate_daily_returns]
  | cons q rest =>
      obtain ⟨d, v⟩ := q
      rw [calculate_daily_returns]
      simp [dailyReturnsGo_fst]

lemma map_fst_smulSeries (w : ℚ) (s : DSeries) :
    (smulSeries w s).map Prod.fst = s.map Prod.fst := by
  simp [smulSeries]

lemma map_fst_reindex0 (src : DSeries) (idx : List Nat) :
    (reindex0 src idx).map Prod.fst = idx := by
  rw [reindex0, List.map_map]
  have hfun : (Prod.fst ∘ fun d : Nat => ((d,
      match lookupDate d src with
      | some v => v
      | none => some 0) : Nat × Option ℚ)) = id := by
    funext d
    rfl
  rw [hfun, List.map_id]

lemma map_fst_addSeries : ∀ (a b : DSeries),
    b.map Prod.fst = a.map Prod.fst →
    (addSeries a b).map Prod.fst = a.map Prod.fst := by
  intro a
  induction a with
  | nil => intro b _; simp [addSeries]
  | cons q a ih =>
      intro b hb
      cases b with
      | nil => simp at hb
      | cons r b =>
          simp only [List.map_cons, List.cons.injEq] at hb
          rw [addSeries, List.zipWith_cons_cons]
          simp only [List.map_cons]
          congr 1
          exact ih b hb.2

lemma lookup_smulSeries (w : ℚ) (d : Nat) : ∀ (s : DSeries),
    lookupDate d (smulSeries w s)
      = (lookupDate d s).map (Option.map (fun x => w * x)) := by
  intro s
  induction s with
  | nil => simp [smulSeries, lookupDate]
  | cons q s ih =>
      obtain ⟨e, v⟩ := q
      rw [smulSeries, List.map_cons, lookupDate]
      by_cases he : e = d
      · rw [if_pos he]
        rw [lookupDate, if_pos he]
        simp
      · rw [if_neg he]
        rw [lookupDate, if_neg he]
        simpa [smulSeries] using ih

lemma reindex0_cons (src : DSeries) (e : Nat) (idx : List Nat) :
    reindex0 src (e :: idx)
      = (e, match lookupDate e src with
          | some v => v
          | none => some 0) :: reindex0 src idx := rfl

lemma lookup_reindex0 (d : Nat) (src : DSeries) : ∀ (idx : List Nat),
    lookupDate d (reindex0 src idx)
      = if d ∈ idx then
          some (match lookupDate d src with
            | some v => v
            | none => some 0)
        else none := by
  intro idx
  induction idx with
  | nil => simp [reindex0, lookupDate]
  | cons e idx ih =>
      rw [reindex0_cons, lookupDate]
      by_cases he : e = d
      · subst he
        rw [if_pos rfl, if_pos (List.mem_cons_self e idx)]
      · rw [if_neg he, ih]
        by_cases hd : d ∈ idx
        · rw [if_pos hd, if_pos (List.mem_cons_of_mem e hd)]
        · rw [if_neg hd, if_neg ?_]
          intro hh
          rcases List.mem_cons.mp hh with h' | h'
          · exact he h'.symm
          · exact hd h'

lemma lookup_addSeries : ∀ (a b : DSeries),
    b.map Prod.fst = a.map Prod.fst → ∀ d : Nat,
    lookupDate d (addSeries a b)
      = match lookupDate d a, lookupDate d b with
        | some x, some y => some (optAdd x y)
        | _, _ => none := by
  intro a
  induction a with
  | nil => intro b hb d; cases b <;> simp_all [addSeries, lookupDate]
  | cons q a ih =>
      intro b hb d
      cases b with
      | nil => simp at hb
      | cons r b =>
          obtain ⟨e, v⟩ := q
          obtain ⟨f, v2⟩ := r
          simp only [List.map_cons, List.cons.injEq] at hb
          have hef : f = e := hb.1
          subst hef
          rw [addSeries, List.zipWith_cons_cons]
          by_cases he : f = d
          · rw [lookupDate, if_pos he, lookupDate, if_pos he, lookupDate, if_pos he]
          · rw [lookupDate, if_neg he, lookupDate, if_neg he, lookupDate, if_neg he]
            exact ih b hb.2 d

lemma lookup_mem : ∀ (s : DSeries) (d : Nat) (v : Option ℚ),
    lookupDate d s = some v → d ∈ s.map Prod.fst := by
  intro s
  induction s with
  | nil => intro d v h; simp [lookupDate] at h
  | cons q s ih =>
      intro d v h
      obtain ⟨e, w⟩ := q
      rw [lookupDate] at h
      by_cases he : e = d
      · simp [he]
      · rw [if_neg he] at h
        simp only [List.map_cons]
        exact List.mem_cons_of_mem _ (ih d v h)

lemma mem_lookup : ∀ (s : DSeries) (d : Nat),
    d ∈ s.map Prod.fst → ∃ v, lookupDate d s = some v := by
  intro s
  induction s with
  | nil => intro d h; simp at h
  | cons q s ih =>
      intro d h
      obtain ⟨e, w⟩ := q
      by_cases he : e = d
      · exact ⟨w, by rw [lookupDate, if_pos he]⟩
      · have : d ∈ s.map Prod.fst := by
          rcases List.mem_cons.mp h with h' | h'
          · exact absurd h'.symm he
          · exact h'
        obtain ⟨v, hv⟩ := ih d this
        exact ⟨v, by rw [lookupDate, if_neg he]; exact hv⟩

lemma portfolioLoop_fst : ∀ (rest : List (PSeries × ℚ)) (acc : DSeries),
    (portfolioLoop acc rest).map Prod.fst = acc.map Prod.fst := by
  intro rest
  induction rest with
  | nil => intro acc; rfl
  | cons s rest ih =>
      intro acc
      obtain ⟨p, w⟩ := s
      rw [portfolioLoop, ih]
      apply map_fst_addSeries
      rw [map_fst_smulSeries, map_fst_reindex0]

lemma portfolioLoop_lookup : ∀ (rest : List (PSeries × ℚ)) (acc : DSeries)
    (d : Nat) (v : Option ℚ), lookupDate d acc = some v →
    lookupDate d (portfolioLoop acc rest)
      = some (rest.foldl (fun x s => optAdd x (contrib d s)) v) := by
  intro rest
  induction rest with
  | nil => intro acc d v hv; simpa [portfolioLoop] using hv
  | cons s rest ih =>
      intro acc d v hv
      obtain ⟨p, w⟩ := s
      rw [portfolioLoop]
      have hbfst : (smulSeries w (reindex0 (calculate_daily_returns p)
          (acc.map Prod.fst))).map Prod.fst = acc.map Prod.fst := by
        rw [map_fst_smulSeries, map_fst_reindex0]
      have hmem : d ∈ acc.map Prod.fst := lookup_mem acc d v hv
      have hlookb : lookupDate d (smulSeries w (reindex0 (calculate_daily_returns p)
          (acc.map Prod.fst))) = some (contrib d (p, w)) := by
        rw [lookup_smulSeries, lookup_reindex0, if_pos hmem]
        cases hsrc : lookupDate d (calculate_daily_returns p) with
        | none => simp [contrib, hsrc]
        | some vv => simp [contrib, hsrc]
      have hacc' : lookupDate d (addSeries acc (smulSeries w
          (reindex0 (calculate_daily_returns p) (acc.map Prod.fst))))
          = some (optAdd v (contrib d (p, w))) := by
        rw [lookup_addSeries acc _ hbfst d, hv, hlookb]
      rw [ih _ d _ hacc']
      simp [List.foldl_cons]

lemma contrib_eq_some (d : Nat) (s : PSeries × ℚ) (h : contrib d s ≠ none) :
    contrib d s = some (contribQ d s) := by
  rw [contrib, contribQ]
  rw [contrib] at h
  cases hsrc : lookupDate d (calculate_daily_returns s.1) with
  | none => simp
  | some v =>
      cases v with
      | none => rw [hsrc] at h; simp at h
      | some x => simp

lemma foldl_optAdd_sum : ∀ (l : List (PSeries × ℚ)) (d : Nat) (v : ℚ),
    (∀ s ∈ l, contrib d s ≠ none) →
    l.foldl (fun x s => optAdd x (contrib d s)) (some v)
      = some (v + (l.map (fun s => contribQ d s)).sum) := by
  intro l
  induction l with
  | nil => intro d v _; simp
  | cons s l ih =>
      intro d v h
      rw [List.foldl_cons, contrib_eq_some d s (h s (List.mem_cons_self s l))]
      rw [show optAdd (some v) (some (contribQ d s))
          = some (v + contribQ d s) from rfl]
      rw [ih d _ (fun t ht => h t (List.mem_cons_of_mem s ht))]
      simp [add_assoc]

/-- C8 as amended: the portfolio return series is defined on the *first*
loaded stock's date index, in order (dates of later stocks outside that index
are dropped, so the result depends on which stock is processed first); at
each date of that index at which every stock's contribution is defined — a
stock missing the date contributes 0, but a stock whose return at the date
is NaN (its first trading date) makes the portfolio value NaN — the value is
the sum over stocks of `weight · return`, with missing dates as 0. -/
theorem calculate_portfolio_returns_spec (p0 : PSeries) (w0 : ℚ)
    (stocks : List (PSeries × ℚ)) :
    ∃ out, calculate_portfolio_returns ((p0, w0) :: stocks) = some out
      ∧ out.map Prod.fst = p0.map Prod.fst
      ∧ ∀ d : Nat, d ∈ p0.map Prod.fst →
          (∀ s ∈ (p0, w0) :: stocks, contrib d s ≠ none) →
          lookupDate d out
            = some (some ((((p0, w0) :: stocks).map (fun s => contribQ d s)).sum)) := by
  refine ⟨portfolioLoop (smulSeries w0 (calculate_daily_returns p0)) stocks,
    rfl, ?_, ?_⟩
  · rw [portfolioLoop_fst, map_fst_smulSeries, calculate_daily_returns_fst]
  · intro d hd hdef
    have hd' : d ∈ (calculate_daily_returns p0).map Prod.fst := by
      rw [calculate_daily_returns_fst]; exact hd
    obtain ⟨u, hu⟩ := mem_lookup _ d hd'
    have hc0 : contrib d (p0, w0) ≠ none := hdef (p0, w0) (List.mem_cons_self _ _)
    have hc0' : contrib d (p0, w0) = some (contribQ d (p0, w0)) :=
      contrib_eq_some d (p0, w0) hc0
    have hcdef : contrib d (p0, w0) = u.map (fun x => w0 * x) := by
      rw [contrib, hu]
    obtain ⟨x, hx⟩ : ∃ x, u = some x := by
      cases u with
      | none => rw [hcdef] at hc0; simp at hc0
      | some x => exact ⟨x, rfl⟩
    have hq0 : contribQ d (p0, w0) = w0 * x := by
      rw [contribQ, hu, hx]
    have hacc : lookupDate d (smulSeries w0 (calculate_daily_returns p0))
        = some (some (w0 * x)) := by
      rw [lookup_smulSeries, hu, hx]
      rfl
    rw [portfolioLoop_lookup stocks _ d _ hacc]
    rw [foldl_optAdd_sum stocks d (w0 * x)
      (fun t ht => hdef t (List.mem_cons_of_mem _ ht))]
    rw [List.map_cons, List.sum_cons, hq0]

/-- Witness for `calculate_portfolio_returns_spec`: a single stock with
weight 2; at date 1 (all contributions defined) the portfolio return is
`2 · (110/100 - 1) = 1/5`. -/
theorem calculate_portfolio_returns_spec_witness :
    ∃ out, calculate_portfolio_returns [([(0, 100), (1, 110)], 2)] = some out
      ∧ lookupDate 1 out = some (some (1/5)) := by
  obtain ⟨out, hout, hfst, hval⟩ :=
    calculate_portfolio_returns_spec [(0, 100), (1, 110)] 2 []
  refine ⟨out, hout, ?_⟩
  have h := hval 1 (by simp) ?_
  · rw [h]
    norm_num [contribQ, calculate_daily_returns, dailyReturnsGo, lookupDate]
  · intro s hs
    rcases List.mem_cons.mp hs with h' | h'
    · rw [h']
      have hcv : contrib 1 ([(0, 100), (1, 110)], 2) = some (1/5) := by
        norm_num [contrib, calculate_daily_returns, dailyReturnsGo, lookupDate]
      rw [hcv]
      simp
    · simp at h'

end PyStock
